import Mathlib

/-!
Verification of the go directory-shortcut tool (lib/go.py).

Shallow embedding conventions:
  paths and shortcut names are Lean Strings; the filesystem is a pair of
  oracle functions isdir and listdir supplied as parameters; the shortcut
  dictionary is an association list whose order is the Python dict
  iteration order and whose keys are unique; every raise site of the
  source gets its own constructor of GoErr.  The platform is posix, so
  os.path.sep is the slash, os.path.altsep is none and normcase is the
  identity.  String primitives are implemented over List Char so that all
  definitions are structural and kernel-evaluable.
-/

set_option maxRecDepth 10000

/-- Error type.  Each constructor corresponds to one raise site of lib/go.py:
noPathGiven to the raise in resolve_path on an empty token, ambiguousShortcut
to the raise at the end of get_shortcut_prefix carrying the token and every
collected candidate, ambiguousPath to the raise inside the directory scan of
resolve_full_path carrying the directory searched and the two conflicting
entry names seen so far, notFound to the raise after a component matched
nothing, with a flag recording whether the special message for a dot prefix
is used, shortcutDoesNotExist to the raise in set_shortcut, and keyError to
an uncaught Python KeyError from a dictionary subscript. -/
inductive GoErr where
  | noPathGiven
  | ambiguousShortcut (tok : String) (cands : List String)
  | ambiguousPath (dir : String) (first second : String)
  | notFound (comp : String) (dir : String) (shortcutMsg : Bool)
  | shortcutDoesNotExist (name : String)
  | keyError (name : String)
deriving DecidableEq

/-- Number of characters of a string, as in Python len. -/
def strLen (s : String) : Nat := s.toList.length

/-- Python slice s[:n]. -/
def strTake (s : String) (n : Nat) : String := (s.toList.take n).asString

/-- Python slice s[n:]. -/
def strDrop (s : String) (n : Nat) : String := (s.toList.drop n).asString

/-- Python s.startswith(p). -/
def strStartsWith (s p : String) : Bool := p.toList.isPrefixOf s.toList

/-- Python s.endswith(p). -/
def strEndsWith (s p : String) : Bool := p.toList.isSuffixOf s.toList

/-- Elements of a translated glob pattern, mirroring fnmatch.translate:
star for the Kleene star, any for the question mark, lit for a literal
character and cls for a bracket set given as a negation flag plus a list of
inclusive character ranges, a single character being a one-point range. -/
inductive GlobElem where
  | star
  | any
  | lit (c : Char)
  | cls (neg : Bool) (items : List (Char × Char))
deriving DecidableEq

/-- Splits a character list at the first closing bracket, returning the part
before it and the part after it, or none when no closing bracket exists. -/
def scanClose : List Char → Option (List Char × List Char)
  | [] => none
  | c :: rest =>
    if c = ']' then some ([], rest)
    else (scanClose rest).map (fun p => (c :: p.1, p.2))

/-- Mirrors the bracket scan of fnmatch.translate: after an opening bracket,
an exclamation mark and then a closing bracket may appear literally at the
start of the set before the scan for the terminating bracket begins.
Returns the raw set body and the remainder of the pattern. -/
def classSpan (l : List Char) : Option (List Char × List Char) :=
  match l with
  | '!' :: rest =>
    match rest with
    | ']' :: rest2 => (scanClose rest2).map (fun p => ('!' :: ']' :: p.1, p.2))
    | _ => (scanClose rest).map (fun p => ('!' :: p.1, p.2))
  | ']' :: rest2 => (scanClose rest2).map (fun p => (']' :: p.1, p.2))
  | _ => scanClose l

/-- Parses a bracket set body into inclusive ranges, with the regex rule that
a hyphen between two characters forms a range while a leading or trailing
hyphen is a literal. -/
def parseItems : List Char → List (Char × Char)
  | [] => []
  | [c] => [(c, c)]
  | a :: '-' :: b :: rest => (a, b) :: parseItems rest
  | a :: rest => (a, a) :: parseItems rest

/-- Translates a glob pattern into elements, the analogue of
fnmatch.translate on posix.  An opening bracket with no closing bracket is a
literal character, as in the source.  The fuel argument bounds the recursion
and one step always consumes at least one character, so pattern length plus
one is always sufficient. -/
def tokenizeGlob : Nat → List Char → List GlobElem
  | 0, _ => []
  | _, [] => []
  | fuel + 1, c :: ps =>
    if c = '*' then .star :: tokenizeGlob fuel ps
    else if c = '?' then .any :: tokenizeGlob fuel ps
    else if c = '[' then
      match classSpan ps with
      | none => .lit '[' :: tokenizeGlob fuel ps
      | some (stuff, rest) =>
        match stuff with
        | '!' :: body => .cls true (parseItems body) :: tokenizeGlob fuel rest
        | body => .cls false (parseItems body) :: tokenizeGlob fuel rest
    else .lit c :: tokenizeGlob fuel ps

/-- Pattern of a glob string. -/
def globElems (pat : String) : List GlobElem :=
  tokenizeGlob (pat.toList.length + 1) pat.toList

/-- Matching of one non-star element against one character. -/
def elemMatch (e : GlobElem) (c : Char) : Bool :=
  match e with
  | .star => false
  | .any => true
  | .lit d => d == c
  | .cls neg items => neg != items.any (fun r => decide (r.1 ≤ c ∧ c ≤ r.2))

/-- Tries a continuation on every suffix of the input, the semantics of a
Kleene star. -/
def matchStar (f : List Char → Bool) : List Char → Bool
  | [] => f []
  | c :: cs => f (c :: cs) || matchStar f cs

/-- Full-string matching of a translated glob pattern, the analogue of the
anchored regex produced by fnmatch.translate. -/
def globMatchL : List GlobElem → List Char → Bool
  | [], s => s.isEmpty
  | .star :: es, s => matchStar (globMatchL es) s
  | _ :: _, [] => false
  | e :: es, c :: cs => elemMatch e c && globMatchL es cs

/-- Embeds fnmatch.fnmatch(name, pat) on posix, where os.path.normcase is
the identity and matching is against the whole name. -/
def fnmatchB (name pat : String) : Bool := globMatchL (globElems pat) name.toList

/-- Embeds os.path.join for two arguments on posix: an absolute second
component replaces the first, otherwise the parts are glued with a slash
unless the first part is empty or already ends in a slash. -/
def pathJoin (a b : String) : String :=
  if strStartsWith b "/" then b
  else if a = "" ∨ strEndsWith a "/" then a ++ b
  else a ++ "/" ++ b

/-- Index one past the last slash of a character list, which is zero when no
slash occurs, as in the rfind step of posixpath.split. -/
def rfindP1 (l : List Char) : Nat :=
  l.length - (l.reverse.takeWhile (fun c => c ≠ '/')).length

/-- Removes trailing slashes, Python rstrip with a slash argument. -/
def rstripSlash (l : List Char) : List Char :=
  (l.reverse.dropWhile (fun c => c = '/')).reverse

/-- Embeds posixpath.split: cut one past the last slash, then strip trailing
slashes from the head unless the head is empty or consists only of
slashes. -/
def pathSplit (p : String) : String × String :=
  let l := p.toList
  let i := rfindP1 l
  let head := l.take i
  let tail := l.drop i
  let head2 := if head ≠ [] ∧ ¬ head.all (fun c => c = '/') then rstripSlash head else head
  (head2.asString, tail.asString)

/-- Python str.split on a single character. -/
def splitOnChar (c : Char) : List Char → List (List Char)
  | [] => [[]]
  | x :: xs =>
    match splitOnChar c xs with
    | [] => []
    | g :: gs => if x = c then [] :: g :: gs else (x :: g) :: gs

/-- The component loop of posixpath.normpath: empty and dot components are
dropped, a dotdot pops the previous component unless there is nothing to pop
or the previous component is itself a dotdot kept at the front of a relative
path. -/
def normLoop (initialSlashes : Nat) : List String → List String → List String
  | newComps, [] => newComps
  | newComps, comp :: rest =>
    if comp = "" ∨ comp = "." then normLoop initialSlashes newComps rest
    else if comp ≠ ".." ∨ (initialSlashes = 0 ∧ newComps = []) ∨
        (newComps ≠ [] ∧ newComps.getLast? = some "..") then
      normLoop initialSlashes (newComps ++ [comp]) rest
    else if newComps ≠ [] then normLoop initialSlashes newComps.dropLast rest
    else normLoop initialSlashes newComps rest

/-- Python sep.join of path components with the slash separator. -/
def joinSlash : List String → String
  | [] => ""
  | [x] => x
  | x :: xs => x ++ "/" ++ joinSlash xs

/-- Embeds posixpath.normpath, including the special treatment of exactly
two leading slashes. -/
def normpath (p : String) : String :=
  if p = "" then "."
  else
    let initialSlashes : Nat :=
      if strStartsWith p "/" then
        if strStartsWith p "//" ∧ ¬ strStartsWith p "///" then 2 else 1
      else 0
    let comps := (splitOnChar '/' p.toList).map List.asString
    let newComps := normLoop initialSlashes [] comps
    let res := (List.replicate initialSlashes '/').asString ++ joinSlash newComps
    if res = "" then "." else res

/-- The while loop of resolve_full_path that peels path components off the
suffix, inlined with the last-head comparison: split the head, append the
tail, stop as soon as splitting returns the head unchanged, exactly when the
next Python loop test would fail.  One step always shortens the head or
stops, so a fuel of the suffix length plus two is always sufficient. -/
def splitCompsAux : Nat → String → List String → List String
  | 0, _, comps => comps
  | fuel + 1, head, comps =>
    let ht := pathSplit head
    if ht.1 = head then comps ++ [ht.2]
    else splitCompsAux fuel ht.1 (comps ++ [ht.2])

/-- Component list of a suffix as built by resolve_full_path: the loop runs
only for a non-empty suffix and the collected tails are reversed at the
end. -/
def splitComps (suffix : String) : List String :=
  if suffix = "" then [] else (splitCompsAux (strLen suffix + 2) suffix []).reverse

/-- The directory scan of resolve_full_path for one component: every listed
entry whose name glob-matches the component followed by a star and whose
join with the current path is a directory is a candidate; the first one is
remembered and a second one raises immediately, naming the directory and the
two entries. -/
def findMatch (isdir : String → Bool) (path comp : String) :
    List String → String → Except GoErr String
  | [], found => .ok found
  | d :: ds, found =>
    if fnmatchB d (comp ++ "*") && isdir (pathJoin path d) then
      if found = "" then findMatch isdir path comp ds d
      else .error (.ambiguousPath path found d)
    else findMatch isdir path comp ds found

/-- The component loop of resolve_full_path: an exact directory join
descends directly, otherwise the directory scan must produce exactly one
candidate; an empty scan raises the not-found error, whose message is
special-cased when the original prefix is a dot. -/
def walkLoop (isdir : String → Bool) (listdir : String → List String) (pfx : String) :
    String → List String → Except GoErr String
  | path, [] => .ok path
  | path, comp :: rest =>
    let tmp := pathJoin path comp
    if isdir tmp then walkLoop isdir listdir pfx tmp rest
    else
      match findMatch isdir path comp (listdir path) "" with
      | .error e => .error e
      | .ok found =>
        if found = "" then .error (.notFound comp path (pfx == "."))
        else walkLoop isdir listdir pfx (pathJoin path found) rest

/-- Embeds resolve_full_path: return the direct join when it is a
directory, otherwise walk the components of the suffix starting from the
normalized prefix. -/
def resolve_full_path (isdir : String → Bool) (listdir : String → List String)
    (pfx suffix : String) : Except GoErr String :=
  let tmp := pathJoin pfx suffix
  if isdir tmp then .ok tmp
  else walkLoop isdir listdir pfx (normpath pfx) (splitComps suffix)

/-- The decision taken after the candidate loop of get_shortcut_prefix: one
collected name is returned, none yields the Python zero result, modelled as
none, and two or more raise the ambiguity error carrying the token and all
collected names. -/
def gspFinish (tok : String) (ret : List String) : Except GoErr (Option String) :=
  match ret with
  | [x] => .ok (some x)
  | [] => .ok none
  | _ => .error (.ambiguousShortcut tok ret)

/-- The candidate loop of get_shortcut_prefix: an exact name returns at
once, a name starting with the token is collected, the rest are skipped. -/
def gspLoop (tok : String) : List String → List String → Except GoErr (Option String)
  | [], ret => gspFinish tok ret
  | name :: rest, ret =>
    if name = tok then .ok (some name)
    else if strStartsWith name tok then gspLoop tok rest (ret ++ [name])
    else gspLoop tok rest ret

/-- Embeds get_shortcut_prefix over the dictionary keys in iteration order;
an empty token short-circuits to the zero result. -/
def get_shortcut_pfx (tok : String) (shortcuts : List (String × String)) :
    Except GoErr (Option String) :=
  if tok = "" then .ok none
  else gspLoop tok (shortcuts.map Prod.fst) []

/-- Splits the token at the first slash, or at the first backslash when no
slash occurs, into the tag and an optional suffix, as at the top of
resolve_path. -/
def splitTag (path : String) : String × Option String :=
  let i :=
    match path.toList.findIdx? (fun c => c = '/') with
    | some i => some i
    | none => path.toList.findIdx? (fun c => c = '\\')
  match i with
  | none => (path, none)
  | some i => (strTake path i, some (strDrop path (i + 1)))

/-- Embeds the body of resolve_path that determines the target and the
remaining suffix, given the shortcut dictionary, the expanded home
directory and the directory oracle: a dictionary hit wins; otherwise the
home-directory heuristic rewrites the token to the tilde shortcut and the
characters after the home prefix plus one more; otherwise a unique shortcut
name prefix is used; otherwise a token naming an existing directory becomes
an empty target with the whole token as suffix; otherwise the degraded
fallback keeps the tag as target, replacing an empty tag by the separator
and a non-directory tag by a dot, with the whole token as suffix. -/
def resolve_target (shortcuts : List (String × String)) (home : String)
    (isdir : String → Bool) (path : String) : Except GoErr (String × Option String) :=
  let ts := splitTag path
  match List.lookup ts.1 shortcuts with
  | some target => .ok (target, ts.2)
  | none =>
    if strStartsWith path home ∧ path ≠ home then
      match List.lookup "~" shortcuts with
      | some target => .ok (target, some (strDrop path (strLen home + 1)))
      | none => .error (.keyError "~")
    else
      match get_shortcut_pfx ts.1 shortcuts with
      | .error e => .error e
      | .ok (some name) =>
        match List.lookup name shortcuts with
        | some target => .ok (target, ts.2)
        | none => .error (.keyError name)
      | .ok none =>
        if isdir path then .ok ("", some path)
        else
          let t0 := ts.1
          let t1 := if t0 = "" then "/" else if ¬ isdir t0 then "." else t0
          .ok (t1, some path)

/-- Embeds resolve_path: an empty token raises, otherwise the target and
suffix are determined and a non-empty suffix is walked under the target by
resolve_full_path. -/
def resolve_path (shortcuts : List (String × String)) (home : String)
    (isdir : String → Bool) (listdir : String → List String) (path : String) :
    Except GoErr String :=
  if path = "" then .error .noPathGiven
  else
    match resolve_target shortcuts home isdir path with
    | .error e => .error e
    | .ok (target, suffix) =>
      match suffix with
      | some s => if s ≠ "" then resolve_full_path isdir listdir target s else .ok target
      | none => .ok target

/-- Python dictionary assignment on an association list kept in insertion
order: an existing key keeps its position and gets the new value, a new key
is appended at the end. -/
def dictInsert (d : List (String × String)) (k v : String) : List (String × String) :=
  if d.any (fun kv => kv.1 = k) then
    d.map (fun kv => if kv.1 = k then (kv.1, v) else kv)
  else d ++ [(k, v)]

/-- Relevant pieces of the process environment for get_default_shortcuts. -/
structure GoEnv where
  HOME : Option String
  USERPROFILE : Option String
  OLDPWD : Option String
  tmpdir : String

/-- Embeds get_default_shortcuts on posix: the dot, dotdot, dotdotdot and
tmp entries in literal order, then the tilde entry from HOME or else
USERPROFILE when either is set, then the dash entry from OLDPWD when
set. -/
def get_default_shortcuts (e : GoEnv) : List (String × String) :=
  let s := [(".", "."), ("..", ".."), ("...", "../.."), ("tmp", e.tmpdir)]
  let s :=
    match e.HOME with
    | some h => dictInsert s "~" h
    | none =>
      match e.USERPROFILE with
      | some u => dictInsert s "~" u
      | none => s
  match e.OLDPWD with
  | some o => dictInsert s "-" o
  | none => s

/-- Python truthiness of the value argument of set_shortcut, which is none
for a deletion and may be an empty string. -/
def truthyVal : Option String → Bool
  | none => false
  | some s => s ≠ ""

/-- The element loop of set_shortcut with its break: the first node whose
name attribute equals the name is updated in place for a truthy value and
removed otherwise, later nodes are untouched; none signals that the loop
fell through without a break. -/
def updateShortcutNodes (name : String) (value : Option String) :
    List (String × String) → Option (List (String × String))
  | [] => none
  | nv :: rest =>
    if nv.1 = name then
      if truthyVal value then some ((nv.1, value.getD "") :: rest)
      else some rest
    else (updateShortcutNodes name value rest).map (fun r => nv :: r)

/-- Embeds set_shortcut.  The persisted file is modelled as an optional
list of shortcut nodes in document order, none when the file does not
exist, which parses as an empty document.  The result is the node list
written back, or the error raised when a falsy value finds no node, in
which case nothing is written. -/
def set_shortcut (file : Option (List (String × String))) (name : String)
    (value : Option String) : Except GoErr (List (String × String)) :=
  let nodes := file.getD []
  match updateShortcutNodes name value nodes with
  | some nodes2 => .ok nodes2
  | none =>
    if truthyVal value then .ok (nodes ++ [(name, value.getD "")])
    else .error (.shortcutDoesNotExist name)

/-- Embeds get_shortcut: the defaults dictionary is updated with every
persisted node in document order; a missing file contributes nothing. -/
def get_shortcut (defaults : List (String × String))
    (file : Option (List (String × String))) : List (String × String) :=
  match file with
  | none => defaults
  | some nodes => nodes.foldl (fun d nv => dictInsert d nv.1 nv.2) defaults

/-- Embeds the regex test of print_shortcuts.  The source matches each
shortcut name against the pattern built by joining the default names with
pipes between a caret-parenthesis prefix and a parenthesis-dollar suffix,
without escaping.  For the names produced by get_default_shortcuts the only
regex metacharacter occurring is the dot, which matches any single
character, so the test holds exactly when some alternative has the length
of the name and agrees with it characterwise up to dots.  A dollar matching
before a trailing newline is not modelled, names with newlines being out of
scope. -/
def defaultNamesRegexMatch (defaults : List String) (s : String) : Bool :=
  defaults.any (fun alt =>
    alt.toList.length = s.toList.length &&
      (alt.toList.zip s.toList).all (fun pc => pc.1 = '.' || pc.1 = pc.2))

/-- Stable ascending insertion used to embed the Python list sort. -/
def insertSorted (x : String) : List String → List String
  | [] => [x]
  | y :: ys => if x.toList ≤ y.toList then x :: y :: ys else y :: insertSorted x ys

/-- Embeds list.sort on strings: stable ascending sort in code point
order. -/
def sortStrings (l : List String) : List String := l.foldr insertSorted []

/-- Embeds the grouping pass of print_shortcuts over the names of the
shortcut dictionary: a name matching the default-names regex is appended to
the default group, any other name to the custom group, and each group is
sorted; returned as the pair of the default group and the custom group. -/
def print_shortcuts_groups (defaults : List String) (names : List String) :
    List String × List String :=
  (sortStrings (names.filter (fun s => defaultNamesRegexMatch defaults s)),
   sortStrings (names.filter (fun s => ¬ defaultNamesRegexMatch defaults s)))

/-- Strips trailing slashes; used only by the concrete filesystem models so
that a directory is recognized with or without a trailing slash, as on a
real filesystem. -/
def stripTS (p : String) : String :=
  (p.toList.reverse.dropWhile (fun c => c = '/')).reverse.asString

/-- Concrete filesystem for the walk scenario: a base directory with the
subdirectories apple, apricot and banana. -/
def demoDirs : List String := ["/base", "/base/apple", "/base/apricot", "/base/banana"]

/-- Directory oracle of the walk scenario. -/
def demoIsdir (p : String) : Bool := demoDirs.contains (stripTS p)

/-- Listing oracle of the walk scenario, in lexicographic order. -/
def demoListdir (p : String) : List String :=
  if stripTS p = "/base" then ["apple", "apricot", "banana"] else []

/-- Concrete filesystem with three subdirectories of one directory all
sharing a one-letter prefix. -/
def triDirs : List String := ["/p", "/p/aa", "/p/ab", "/p/ac"]

/-- Directory oracle of the three-way scenario. -/
def triIsdir (p : String) : Bool := triDirs.contains (stripTS p)

/-- Listing oracle of the three-way scenario. -/
def triListdir (p : String) : List String :=
  if stripTS p = "/p" then ["aa", "ab", "ac"] else []

/-- Concrete environment for the listing scenario. -/
def envDemo : GoEnv :=
  { HOME := some "/home/u", USERPROFILE := none, OLDPWD := some "/prev", tmpdir := "/tmp" }

theorem gspLoop_exact (tok : String) (names : List String) :
    ∀ acc, tok ∈ names → gspLoop tok names acc = .ok (some tok) := by
  induction names with
  | nil => intro acc h; exact absurd h (List.not_mem_nil tok)
  | cons name rest ih =>
    intro acc h
    by_cases he : name = tok
    · simp [gspLoop, if_pos he, he]
    · have hr : tok ∈ rest := by
        cases List.mem_cons.mp h with
        | inl h1 => exact absurd h1.symm he
        | inr h2 => exact h2
      by_cases hs : strStartsWith name tok = true
      · simp only [gspLoop, if_neg he, if_pos hs]
        exact ih (acc ++ [name]) hr
      · simp only [gspLoop, if_neg he, if_neg hs]
        exact ih acc hr

theorem gspLoop_prefixes (tok : String) (names : List String) :
    ∀ acc, tok ∉ names →
      gspLoop tok names acc =
        gspFinish tok (acc ++ names.filter (fun n => strStartsWith n tok)) := by
  induction names with
  | nil => intro acc h; simp [gspLoop]
  | cons name rest ih =>
    intro acc h
    have hne : name ≠ tok := fun he => h (he ▸ List.mem_cons_self name rest)
    have hr : tok ∉ rest := fun hm => h (List.mem_cons_of_mem name hm)
    by_cases hs : strStartsWith name tok = true
    · simp only [gspLoop, if_neg hne, if_pos hs]
      rw [ih (acc ++ [name]) hr]
      simp [hs, List.filter_cons, List.append_assoc]
    · simp only [gspLoop, if_neg hne, if_neg hs]
      rw [ih acc hr]
      simp [hs, List.filter_cons]

/-- Claim C2: for every non-empty token t and every candidate dictionary
containing t itself as a name, prefix resolution returns t, even when other
candidates also start with t; consequently the ambiguity error can only be
raised when t equals no candidate exactly. -/
theorem C2_exact_match_wins (t : String) (shortcuts : List (String × String))
    (h1 : t ≠ "") (h2 : t ∈ shortcuts.map Prod.fst) :
    get_shortcut_pfx t shortcuts = .ok (some t) := by
  unfold get_shortcut_pfx
  rw [if_neg h1]
  exact gspLoop_exact t _ [] h2

theorem C2_exact_match_wins_witness :
    get_shortcut_pfx "k" [("ko", "/a"), ("k", "/b")] = .ok (some "k") :=
  C2_exact_match_wins "k" [("ko", "/a"), ("k", "/b")] (by decide) (by decide)

/-- Claim C7: a non-empty token that is a prefix of two or more shortcut
names and is not itself a name makes get_shortcut_prefix raise the
ambiguity error listing exactly the names starting with the token, in the
iteration order of the candidate dictionary. -/
theorem C7_ambiguous_prefixes (t : String) (shortcuts : List (String × String))
    (h1 : t ≠ "") (h2 : t ∉ shortcuts.map Prod.fst)
    (h3 : 2 ≤ ((shortcuts.map Prod.fst).filter (fun n => strStartsWith n t)).length) :
    get_shortcut_pfx t shortcuts =
      .error (.ambiguousShortcut t
        ((shortcuts.map Prod.fst).filter (fun n => strStartsWith n t))) := by
  unfold get_shortcut_pfx
  rw [if_neg h1, gspLoop_prefixes t _ [] h2, List.nil_append]
  cases hf : (shortcuts.map Prod.fst).filter (fun n => strStartsWith n t) with
  | nil => rw [hf] at h3; simp at h3
  | cons a l =>
    cases l with
    | nil => rw [hf] at h3; simp at h3
    | cons b l2 => simp [gspFinish]

theorem C7_ambiguous_prefixes_witness :
    get_shortcut_pfx "a" [("ab", "1"), ("ac", "2")] =
      .error (.ambiguousShortcut "a" ["ab", "ac"]) :=
  C7_ambiguous_prefixes "a" [("ab", "1"), ("ac", "2")] (by decide) (by decide) (by decide)

/-- Claim C1: in a base directory whose subdirectories are exactly apple,
apricot and banana, the sub-path walk on the component ap raises the
ambiguity error naming apple and apricot, the walks on b and on ban return
the banana subdirectory, and the walk on cherry raises the not-found
error. -/
theorem C1_walk_demo :
    resolve_full_path demoIsdir demoListdir "/base" "ap" =
        .error (.ambiguousPath "/base/" "apple" "apricot") ∧
    resolve_full_path demoIsdir demoListdir "/base" "b" = .ok "/base/banana" ∧
    resolve_full_path demoIsdir demoListdir "/base" "ban" = .ok "/base/banana" ∧
    resolve_full_path demoIsdir demoListdir "/base" "cherry" =
        .error (.notFound "cherry" "/base/" false) :=
  ⟨rfl, rfl, rfl, rfl⟩

theorem findMatch_ok_isdir (isdir : String → Bool) (path comp : String) :
    ∀ (ds : List String) (found f : String),
      (found ≠ "" → isdir (pathJoin path found) = true) →
      findMatch isdir path comp ds found = .ok f → f ≠ "" →
      isdir (pathJoin path f) = true := by
  intro ds
  induction ds with
  | nil =>
    intro found f hinv h hne
    simp only [findMatch] at h
    cases h
    exact hinv hne
  | cons d ds ih =>
    intro found f hinv h hne
    simp only [findMatch] at h
    split at h
    next hc =>
      split at h
      next => exact ih d f (fun _ => (Bool.and_eq_true _ _ |>.mp hc).2) h hne
      next => cases h
    next => exact ih found f hinv h hne

theorem walkLoop_ok_isdir (isdir : String → Bool) (listdir : String → List String)
    (pfx : String) : ∀ (comps : List String) (path r : String), comps ≠ [] →
      walkLoop isdir listdir pfx path comps = .ok r → isdir r = true := by
  intro comps
  induction comps with
  | nil => intro path r h; exact absurd rfl h
  | cons comp rest ih =>
    intro path r _ h
    simp only [walkLoop] at h
    split at h
    next hdir =>
      cases rest with
      | nil =>
        simp only [walkLoop] at h
        cases h
        exact hdir
      | cons c2 r2 => exact ih (pathJoin path comp) r (by simp) h
    next =>
      split at h
      next => cases h
      next found hfm =>
        split at h
        next => cases h
        next hfound =>
          have hisdir : isdir (pathJoin path found) = true :=
            findMatch_ok_isdir isdir path comp (listdir path) "" found
              (fun hh => absurd rfl hh) hfm hfound
          cases rest with
          | nil =>
            simp only [walkLoop] at h
            cases h
            exact hisdir
          | cons c2 r2 => exact ih (pathJoin path found) r (by simp) h

theorem splitCompsAux_extends : ∀ (fuel : Nat) (head : String) (acc : List String),
    ∃ l, splitCompsAux fuel head acc = acc ++ l := by
  intro fuel
  induction fuel with
  | zero => intro head acc; exact ⟨[], by simp [splitCompsAux]⟩
  | succ fuel ih =>
    intro head acc
    simp only [splitCompsAux]
    split
    next => exact ⟨[(pathSplit head).2], rfl⟩
    next =>
      obtain ⟨l, hl⟩ := ih (pathSplit head).1 (acc ++ [(pathSplit head).2])
      exact ⟨[(pathSplit head).2] ++ l, by rw [hl, List.append_assoc]⟩

theorem splitCompsAux_cons (fuel : Nat) (head : String) (acc : List String) :
    ∃ l, splitCompsAux (fuel + 1) head acc = (acc ++ [(pathSplit head).2]) ++ l := by
  simp only [splitCompsAux]
  split
  next => exact ⟨[], by simp⟩
  next =>
    obtain ⟨l, hl⟩ := splitCompsAux_extends fuel (pathSplit head).1 (acc ++ [(pathSplit head).2])
    exact ⟨l, hl⟩

theorem splitComps_ne_nil (s : String) (h : s ≠ "") : splitComps s ≠ [] := by
  unfold splitComps
  rw [if_neg h]
  have he : strLen s + 2 = (strLen s + 1) + 1 := rfl
  rw [he]
  obtain ⟨l, hl⟩ := splitCompsAux_cons (strLen s + 1) s []
  rw [hl]
  simp

theorem resolve_full_path_ok_isdir (isdir : String → Bool) (listdir : String → List String)
    (pfx s r : String) (hs : s ≠ "")
    (h : resolve_full_path isdir listdir pfx s = .ok r) : isdir r = true := by
  simp only [resolve_full_path] at h
  split at h
  next hdir => cases h; exact hdir
  next =>
    exact walkLoop_ok_isdir isdir listdir pfx (splitComps s) (normpath pfx) r
      (splitComps_ne_nil s hs) h

theorem resolve_target_lookup (shortcuts : List (String × String)) (home : String)
    (isdir : String → Bool) (path tgt : String)
    (h1 : List.lookup (splitTag path).1 shortcuts = some tgt) :
    resolve_target shortcuts home isdir path = .ok (tgt, (splitTag path).2) := by
  simp only [resolve_target]
  rw [h1]

/-- Claim C5 counterexample: resolving the bare name of a shortcut whose
stored target exists nowhere on disk succeeds through the store lookup and
returns that non-existing path, because no existence check runs when no
sub-path remains.  The directory oracle here reports no directory at
all. -/
theorem C5_counterexample :
    resolve_path [("x", "/gone")] "/h" (fun _ => false) (fun _ => []) "x" = .ok "/gone" ∧
    (fun _ => false : String → Bool) "/gone" = false :=
  ⟨rfl, rfl⟩

/-- Claim C5 amended: when resolution goes through a shortcut-store lookup
and a non-empty sub-path remains, a successful result is an existing
directory according to the oracle, because every exit of the sub-path walk
returns a path whose directory check succeeded; a bare shortcut name is
returned without any existence check. -/
theorem C5_lookup_with_subpath_exists (shortcuts : List (String × String))
    (home : String) (isdir : String → Bool) (listdir : String → List String)
    (path tgt s r : String)
    (h1 : List.lookup (splitTag path).1 shortcuts = some tgt)
    (h2 : (splitTag path).2 = some s) (h3 : s ≠ "")
    (h4 : resolve_path shortcuts home isdir listdir path = .ok r) :
    isdir r = true := by
  have hp : path ≠ "" := by
    intro he
    subst he
    have hnone : (splitTag "").2 = none := rfl
    rw [hnone] at h2
    cases h2
  have ht := resolve_target_lookup shortcuts home isdir path tgt h1
  rw [h2] at ht
  unfold resolve_path at h4
  rw [if_neg hp, ht] at h4
  simp only [] at h4
  rw [if_pos h3] at h4
  exact resolve_full_path_ok_isdir isdir listdir tgt s r h3 h4

theorem C5_lookup_with_subpath_exists_witness :
    (fun p => p == "/a/b" : String → Bool) "/a/b" = true :=
  C5_lookup_with_subpath_exists [("x", "/a")] "/h" (fun p => p == "/a/b") (fun _ => [])
    "x/b" "/a" "b" "/a/b" (by decide) (by decide) (by decide) rfl

/-- Claim C3 counterexample: in the degraded fallback the remaining
sub-path does not stay unchanged; for the token xy slash z with an empty
store, no home match and no existing directory, the rest after the split is
z but the fallback proceeds with the whole token as the suffix. -/
theorem C3_counterexample :
    resolve_target [] "/home/u" (fun _ => false) "xy/z" = .ok (".", some "xy/z") ∧
    (splitTag "xy/z").2 = some "z" ∧ ("xy/z" : String) ≠ "z" :=
  ⟨rfl, rfl, by decide⟩

/-- Claim C3 amended: in the final fallback, the target is the head, with
an empty head replaced by the path separator and a head that is not an
existing directory replaced by a dot, the remaining sub-path becomes the
whole original token, and the step itself never raises. -/
theorem C3_fallback_degrades (shortcuts : List (String × String)) (home : String)
    (isdir : String → Bool) (path : String)
    (h1 : List.lookup (splitTag path).1 shortcuts = none)
    (h2 : ¬ (strStartsWith path home = true ∧ path ≠ home))
    (h3 : get_shortcut_pfx (splitTag path).1 shortcuts = .ok none)
    (h4 : isdir path = false) :
    resolve_target shortcuts home isdir path =
      .ok ((if (splitTag path).1 = "" then "/"
            else if ¬ isdir (splitTag path).1 then "." else (splitTag path).1),
           some path) := by
  simp only [resolve_target]
  rw [h1, if_neg h2, h3, h4]
  simp

theorem C3_fallback_degrades_witness :
    resolve_target [] "/h" (fun _ => false) "xy/z" = .ok (".", some "xy/z") := by
  have h := C3_fallback_degrades [] "/h" (fun _ => false) "xy/z" rfl (by decide) rfl rfl
  simpa using h

/-- Claim C6 counterexample: the home-directory heuristic does not keep
exactly the portion of the token after the home prefix; with home two
characters long and the token the home followed by a single letter with no
separator, the portion after the prefix is that letter, but the code drops
one further character and continues with the empty suffix. -/
theorem C6_counterexample :
    resolve_target [("~", "/h")] "/h" (fun _ => false) "/hx" = .ok ("/h", some "") ∧
    strDrop "/hx" (strLen "/h") = "x" ∧ ("" : String) ≠ "x" :=
  ⟨rfl, rfl, by decide⟩

/-- Claim C6 amended: when the head finds no store entry and the token
starts with the home directory and is strictly longer, the target is the
tilde entry of the store and the remaining sub-path is the token with the
length of the home plus one characters removed, the extra character being
the separator position. -/
theorem C6_home_heuristic (shortcuts : List (String × String)) (home : String)
    (isdir : String → Bool) (path tgt : String)
    (h1 : List.lookup (splitTag path).1 shortcuts = none)
    (h2 : strStartsWith path home = true) (h3 : strLen home < strLen path)
    (h4 : List.lookup "~" shortcuts = some tgt) :
    resolve_target shortcuts home isdir path =
      .ok (tgt, some (strDrop path (strLen home + 1))) := by
  have hne : path ≠ home := by
    intro he
    subst he
    exact Nat.lt_irrefl _ h3
  simp only [resolve_target]
  rw [h1, if_pos ⟨h2, hne⟩, h4]

theorem C6_home_heuristic_witness :
    resolve_target [("~", "/h")] "/h" (fun _ => false) "/h/ab" = .ok ("/h", some "ab") :=
  C6_home_heuristic [("~", "/h")] "/h" (fun _ => false) "/h/ab" "/h"
    rfl (by decide) (by decide) rfl

theorem findMatch_second (isdir : String → Bool) (path comp : String) :
    ∀ (ds : List String) (found b : String) (others : List String), found ≠ "" →
      ds.filter (fun d => fnmatchB d (comp ++ "*") && isdir (pathJoin path d)) = b :: others →
      findMatch isdir path comp ds found = .error (.ambiguousPath path found b) := by
  intro ds
  induction ds with
  | nil => intro found b others hf hfil; simp at hfil
  | cons d ds ih =>
    intro found b others hf hfil
    rw [List.filter_cons] at hfil
    by_cases hc : (fnmatchB d (comp ++ "*") && isdir (pathJoin path d)) = true
    · rw [if_pos hc] at hfil
      injection hfil with hdb hrest
      subst hdb
      simp only [findMatch]
      rw [if_pos hc, if_neg hf]
    · rw [if_neg hc] at hfil
      simp only [findMatch]
      rw [if_neg hc]
      exact ih found b others hf hfil

theorem findMatch_first_two (isdir : String → Bool) (path comp : String) :
    ∀ (ds : List String) (a b : String) (others : List String), a ≠ "" →
      ds.filter (fun d => fnmatchB d (comp ++ "*") && isdir (pathJoin path d)) =
        a :: b :: others →
      findMatch isdir path comp ds "" = .error (.ambiguousPath path a b) := by
  intro ds
  induction ds with
  | nil => intro a b others ha hfil; simp at hfil
  | cons d ds ih =>
    intro a b others ha hfil
    rw [List.filter_cons] at hfil
    by_cases hc : (fnmatchB d (comp ++ "*") && isdir (pathJoin path d)) = true
    · rw [if_pos hc] at hfil
      injection hfil with hda hrest
      subst hda
      simp only [findMatch]
      rw [if_pos hc, if_pos trivial]
      exact findMatch_second isdir path comp ds d b others ha hrest
    · rw [if_neg hc] at hfil
      simp only [findMatch]
      rw [if_neg hc]
      exact ih a b others ha hfil

/-- Claim C4 counterexample: with three matching subdirectories aa, ab and
ac of one directory and the component a, the walk raises the ambiguity
error naming only the first two matches, not all matching entry names. -/
theorem C4_counterexample :
    resolve_full_path triIsdir triListdir "/p" "a" =
      .error (.ambiguousPath "/p/" "aa" "ab") ∧
    (triListdir "/p/").filter
        (fun d => fnmatchB d ("a" ++ "*") && triIsdir (pathJoin "/p/" d)) =
      ["aa", "ab", "ac"] :=
  ⟨rfl, rfl⟩

/-- Claim C4 amended: whenever the direct join of the current directory and
the component is not a directory and at least two listed entries
glob-match the component followed by a star and are directories, the walk
fails with the ambiguity error naming the directory searched and the first
two matching entries in listing order, which are all of them exactly when
there are two; no listed entry is the empty name. -/
theorem C4_ambiguous_first_two (isdir : String → Bool) (listdir : String → List String)
    (pfx path comp : String) (rest : List String) (a b : String) (others : List String)
    (h0 : "" ∉ listdir path)
    (h1 : isdir (pathJoin path comp) = false)
    (h2 : (listdir path).filter
        (fun d => fnmatchB d (comp ++ "*") && isdir (pathJoin path d)) =
      a :: b :: others) :
    walkLoop isdir listdir pfx path (comp :: rest) = .error (.ambiguousPath path a b) := by
  have ha : a ≠ "" := by
    intro he
    subst he
    have hmem : ("" : String) ∈ (listdir path).filter
        (fun d => fnmatchB d (comp ++ "*") && isdir (pathJoin path d)) := by
      rw [h2]
      exact List.mem_cons_self _ _
    exact h0 (List.mem_of_mem_filter hmem)
  simp only [walkLoop]
  rw [if_neg (by simp [h1])]
  rw [findMatch_first_two isdir path comp (listdir path) a b others ha h2]

theorem C4_ambiguous_first_two_witness :
    walkLoop triIsdir triListdir "/p" "/p/" ["a"] =
      .error (.ambiguousPath "/p/" "aa" "ab") :=
  C4_ambiguous_first_two triIsdir triListdir "/p" "/p/" "a" [] "aa" "ab" ["ac"]
    (by decide) rfl rfl

theorem lookup_cons_self (x v : String) (l : List (String × String)) :
    List.lookup x ((x, v) :: l) = some v := by
  simp [List.lookup_cons]

theorem lookup_cons_ne (x : String) (nv : String × String) (l : List (String × String))
    (h : nv.1 ≠ x) : List.lookup x (nv :: l) = List.lookup x l := by
  cases nv with
  | mk k v => simp [List.lookup_cons, beq_false_of_ne (Ne.symm h)]

theorem updateNodes_none_of_not_mem (name : String) (value : Option String) :
    ∀ nodes : List (String × String), name ∉ nodes.map Prod.fst →
      updateShortcutNodes name value nodes = none := by
  intro nodes
  induction nodes with
  | nil => intro _; rfl
  | cons nv rest ih =>
    intro h
    have h1 : nv.1 ≠ name := fun he => h (by simp [he])
    have h2 : name ∉ rest.map Prod.fst := fun hm => h (by simp [hm])
    simp only [updateShortcutNodes]
    rw [if_neg h1, ih h2]
    rfl

theorem updateNodes_not_mem_of_none (name : String) (value : Option String) :
    ∀ nodes : List (String × String), updateShortcutNodes name value nodes = none →
      name ∉ nodes.map Prod.fst := by
  intro nodes
  induction nodes with
  | nil => intro _; simp
  | cons nv rest ih =>
    intro h
    simp only [updateShortcutNodes] at h
    by_cases h1 : nv.1 = name
    · rw [if_pos h1] at h
      split at h <;> cases h
    · rw [if_neg h1] at h
      have h2 : updateShortcutNodes name value rest = none := by
        cases hu : updateShortcutNodes name value rest with
        | none => rfl
        | some r => rw [hu] at h; cases h
      have h3 := ih h2
      simp only [List.map_cons, List.mem_cons]
      rintro (he | hm)
      · exact h1 he.symm
      · exact h3 hm

theorem updateNodes_set_found (x D : String) (hD : D ≠ "") :
    ∀ nodes : List (String × String), x ∈ nodes.map Prod.fst →
      ∃ nodes2, updateShortcutNodes x (some D) nodes = some nodes2 ∧
        nodes2.map Prod.fst = nodes.map Prod.fst ∧
        List.lookup x nodes2 = some D ∧
        updateShortcutNodes x (some D) nodes2 = some nodes2 := by
  intro nodes
  induction nodes with
  | nil => intro h; simp at h
  | cons nv rest ih =>
    intro h
    by_cases h1 : nv.1 = x
    · refine ⟨(nv.1, D) :: rest, ?_, ?_, ?_, ?_⟩
      · simp only [updateShortcutNodes]
        rw [if_pos h1]
        simp [truthyVal, hD]
      · simp
      · rw [h1]
        exact lookup_cons_self x D rest
      · simp only [updateShortcutNodes]
        rw [if_pos h1]
        simp [truthyVal, hD]
    · have hr : x ∈ rest.map Prod.fst := by
        rw [List.map_cons] at h
        rcases List.mem_cons.mp h with he | hm
        · exact absurd he.symm h1
        · exact hm
      obtain ⟨rest2, hu, hk, hl, hi⟩ := ih hr
      refine ⟨nv :: rest2, ?_, ?_, ?_, ?_⟩
      · simp only [updateShortcutNodes]
        rw [if_neg h1, hu]
        rfl
      · simp [hk]
      · rw [lookup_cons_ne x nv rest2 h1]
        exact hl
      · simp only [updateShortcutNodes]
        rw [if_neg h1, hi]
        rfl

theorem updateNodes_del_found (x : String) :
    ∀ nodes : List (String × String), (nodes.map Prod.fst).Nodup →
      x ∈ nodes.map Prod.fst →
      ∃ nodes2, updateShortcutNodes x none nodes = some nodes2 ∧
        x ∉ nodes2.map Prod.fst := by
  intro nodes
  induction nodes with
  | nil => intro _ h; simp at h
  | cons nv rest ih =>
    intro hnd h
    rw [List.map_cons] at hnd
    have hnd2 := List.nodup_cons.mp hnd
    by_cases h1 : nv.1 = x
    · refine ⟨rest, ?_, ?_⟩
      · simp only [updateShortcutNodes]
        rw [if_pos h1]
        rfl
      · rw [← h1]
        exact hnd2.1
    · have hr : x ∈ rest.map Prod.fst := by
        rw [List.map_cons] at h
        rcases List.mem_cons.mp h with he | hm
        · exact absurd he.symm h1
        · exact hm
      obtain ⟨rest2, hu, hx⟩ := ih hnd2.2 hr
      refine ⟨nv :: rest2, ?_, ?_⟩
      · simp only [updateShortcutNodes]
        rw [if_neg h1, hu]
        rfl
      · simp only [List.map_cons, List.mem_cons]
        rintro (he | hm)
        · exact h1 he.symm
        · exact hx hm

theorem any_key_iff_mem (d : List (String × String)) (k : String) :
    d.any (fun kv => kv.1 = k) = true ↔ k ∈ d.map Prod.fst := by
  simp [List.any_eq_true, List.mem_map]

theorem lookup_map_replace (k v : String) :
    ∀ d : List (String × String), k ∈ d.map Prod.fst →
      List.lookup k (d.map (fun kv => if kv.1 = k then (kv.1, v) else kv)) = some v := by
  intro d
  induction d with
  | nil => intro h; simp at h
  | cons nv rest ih =>
    intro h
    simp only [List.map_cons]
    by_cases h1 : nv.1 = k
    · rw [if_pos h1, h1]
      exact lookup_cons_self k v _
    · rw [if_neg h1, lookup_cons_ne k nv _ h1]
      rw [List.map_cons] at h
      rcases List.mem_cons.mp h with he | hm
      · exact absurd he.symm h1
      · exact ih hm

theorem lookup_map_replace_ne (k v x : String) (hx : x ≠ k) :
    ∀ d : List (String × String),
      List.lookup x (d.map (fun kv => if kv.1 = k then (kv.1, v) else kv)) =
        List.lookup x d := by
  intro d
  induction d with
  | nil => rfl
  | cons nv rest ih =>
    simp only [List.map_cons]
    by_cases h1 : nv.1 = k
    · have h1x : nv.1 ≠ x := fun he => hx (he ▸ h1)
      rw [if_pos h1]
      rw [lookup_cons_ne x (nv.1, v) _ h1x]
      rw [lookup_cons_ne x nv _ h1x]
      exact ih
    · rw [if_neg h1]
      by_cases h2 : nv.1 = x
      · cases nv with
        | mk a b =>
          simp only at h2
          subst h2
          rw [lookup_cons_self, lookup_cons_self]
      · rw [lookup_cons_ne x nv _ h2, lookup_cons_ne x nv _ h2]
        exact ih

theorem lookup_append_new (k v : String) :
    ∀ d : List (String × String), k ∉ d.map Prod.fst →
      List.lookup k (d ++ [(k, v)]) = some v := by
  intro d
  induction d with
  | nil => exact fun _ => lookup_cons_self k v []
  | cons nv rest ih =>
    intro h
    have h1 : nv.1 ≠ k := fun he => h (by simp [he])
    rw [List.cons_append, lookup_cons_ne k nv _ h1]
    exact ih (fun hm => h (by simp [hm]))

theorem lookup_append_ne (k v x : String) (hx : x ≠ k) :
    ∀ d : List (String × String),
      List.lookup x (d ++ [(k, v)]) = List.lookup x d := by
  intro d
  induction d with
  | nil =>
    simp only [List.nil_append]
    rw [lookup_cons_ne x (k, v) [] (Ne.symm hx)]
  | cons nv rest ih =>
    by_cases h2 : nv.1 = x
    · cases nv with
      | mk a b =>
        simp only at h2
        subst h2
        rw [List.cons_append, lookup_cons_self, lookup_cons_self]
    · rw [List.cons_append, lookup_cons_ne x nv _ h2, lookup_cons_ne x nv _ h2]
      exact ih

theorem lookup_dictInsert_self (d : List (String × String)) (k v : String) :
    List.lookup k (dictInsert d k v) = some v := by
  unfold dictInsert
  split
  next hany => exact lookup_map_replace k v d ((any_key_iff_mem d k).mp hany)
  next hany =>
    refine lookup_append_new k v d (fun hm => hany ?_)
    exact (any_key_iff_mem d k).mpr hm

theorem lookup_dictInsert_ne (d : List (String × String)) (k v x : String) (hx : x ≠ k) :
    List.lookup x (dictInsert d k v) = List.lookup x d := by
  unfold dictInsert
  split
  next => exact lookup_map_replace_ne k v x hx d
  next => exact lookup_append_ne k v x hx d

theorem lookup_fold_not_mem (x : String) :
    ∀ (nodes : List (String × String)) (d : List (String × String)),
      x ∉ nodes.map Prod.fst →
      List.lookup x (nodes.foldl (fun d nv => dictInsert d nv.1 nv.2) d) =
        List.lookup x d := by
  intro nodes
  induction nodes with
  | nil => intro d _; rfl
  | cons nv rest ih =>
    intro d h
    have h1 : nv.1 ≠ x := fun he => h (by simp [he])
    have h2 : x ∉ rest.map Prod.fst := fun hm => h (by simp [hm])
    simp only [List.foldl_cons]
    rw [ih (dictInsert d nv.1 nv.2) h2]
    exact lookup_dictInsert_ne d nv.1 nv.2 x (Ne.symm h1)

theorem lookup_fold_mem (x D : String) :
    ∀ (nodes : List (String × String)) (d : List (String × String)),
      (nodes.map Prod.fst).Nodup → List.lookup x nodes = some D →
      List.lookup x (nodes.foldl (fun d nv => dictInsert d nv.1 nv.2) d) = some D := by
  intro nodes
  induction nodes with
  | nil => intro d _ h; simp [List.lookup] at h
  | cons nv rest ih =>
    intro d hnd hl
    rw [List.map_cons] at hnd
    have hnd2 := List.nodup_cons.mp hnd
    simp only [List.foldl_cons]
    by_cases h1 : nv.1 = x
    · have hD : nv.2 = D := by
        cases nv with
        | mk a b =>
          simp only at h1
          subst h1
          rw [lookup_cons_self] at hl
          exact Option.some.inj hl
      have hx : x ∉ rest.map Prod.fst := h1 ▸ hnd2.1
      rw [lookup_fold_not_mem x rest _ hx, ← h1, ← hD]
      exact lookup_dictInsert_self d nv.1 nv.2
    · have hl2 : List.lookup x rest = some D := by
        rw [← lookup_cons_ne x nv rest h1]
        exact hl
      exact ih (dictInsert d nv.1 nv.2) hnd2.2 hl2

theorem updateNodes_empty_eq_none (x : String) :
    ∀ nodes : List (String × String),
      updateShortcutNodes x (some "") nodes = updateShortcutNodes x none nodes := by
  intro nodes
  induction nodes with
  | nil => rfl
  | cons nv rest ih =>
    simp only [updateShortcutNodes]
    by_cases h1 : nv.1 = x
    · rw [if_pos h1, if_pos h1]
      rfl
    · rw [if_neg h1, if_neg h1, ih]

theorem updateNodes_append_self (x D : String) (hD : D ≠ "") :
    ∀ nodes : List (String × String), x ∉ nodes.map Prod.fst →
      updateShortcutNodes x (some D) (nodes ++ [(x, D)]) = some (nodes ++ [(x, D)]) := by
  intro nodes
  induction nodes with
  | nil =>
    intro _
    simp only [List.nil_append, updateShortcutNodes]
    simp [truthyVal, hD]
  | cons nv rest ih =>
    intro h
    have h1 : nv.1 ≠ x := fun he => h (by simp [he])
    rw [List.cons_append]
    simp only [updateShortcutNodes]
    rw [if_neg h1, ih (fun hm => h (by simp [hm]))]
    rfl

/-- Claim C10: setting a shortcut whose value is the empty string is never
an upsert; the empty string is falsy, so the operation is identical to the
deletion path, removing the persisted node of that name when one exists and
raising the does-not-exist error when none does. -/
theorem C10_empty_value_deletes (file : Option (List (String × String))) (x : String)
    (hnd : ((file.getD []).map Prod.fst).Nodup) :
    set_shortcut file x (some "") = set_shortcut file x none ∧
    (x ∈ (file.getD []).map Prod.fst →
      ∃ nodes2, set_shortcut file x (some "") = .ok nodes2 ∧
        x ∉ nodes2.map Prod.fst) ∧
    (x ∉ (file.getD []).map Prod.fst →
      set_shortcut file x (some "") = .error (.shortcutDoesNotExist x)) := by
  refine ⟨?_, ?_, ?_⟩
  · simp only [set_shortcut]
    rw [updateNodes_empty_eq_none x (file.getD [])]
    cases hu : updateShortcutNodes x none (file.getD []) with
    | some r => rfl
    | none => rfl
  · intro hm
    obtain ⟨nodes2, hu, hx⟩ := updateNodes_del_found x (file.getD []) hnd hm
    refine ⟨nodes2, ?_, hx⟩
    simp only [set_shortcut]
    rw [updateNodes_empty_eq_none x (file.getD []), hu]
  · intro hm
    simp only [set_shortcut]
    rw [updateNodes_empty_eq_none x (file.getD []),
      updateNodes_none_of_not_mem x none (file.getD []) hm]
    rfl

theorem C10_empty_value_deletes_witness :
    set_shortcut (some [("x", "/a")]) "x" (some "") =
      set_shortcut (some [("x", "/a")]) "x" none ∧
    ("x" ∈ (((some [("x", "/a")] : Option (List (String × String))).getD
        []).map Prod.fst) →
      ∃ nodes2, set_shortcut (some [("x", "/a")]) "x" (some "") = .ok nodes2 ∧
        "x" ∉ nodes2.map Prod.fst) ∧
    ("x" ∉ (((some [("x", "/a")] : Option (List (String × String))).getD
        []).map Prod.fst) →
      set_shortcut (some [("x", "/a")]) "x" (some "") =
        .error (.shortcutDoesNotExist "x")) :=
  C10_empty_value_deletes (some [("x", "/a")]) "x" (by decide)

/-- Claim C8: store round-trip on a well-formed persisted store, whose node
names are distinct, with a non-empty directory string.  A set followed by a
fresh load yields a store mapping the name to the directory; repeating the
same set persists exactly the same node list; a delete leaves no persisted
node of the name when it succeeds, so a fresh load falls back to the
defaults for that name, and when it raises the name was not persisted to
begin with. -/
theorem C8_store_roundtrip (defaults : List (String × String))
    (file : Option (List (String × String))) (x D : String)
    (hD : D ≠ "") (hnd : ((file.getD []).map Prod.fst).Nodup) :
    (∃ nodes2, set_shortcut file x (some D) = .ok nodes2 ∧
      List.lookup x (get_shortcut defaults (some nodes2)) = some D ∧
      set_shortcut (some nodes2) x (some D) = .ok nodes2) ∧
    (∀ nodes2, set_shortcut file x none = .ok nodes2 →
      x ∉ nodes2.map Prod.fst ∧
      List.lookup x (get_shortcut defaults (some nodes2)) = List.lookup x defaults) ∧
    (∀ e, set_shortcut file x none = .error e → x ∉ (file.getD []).map Prod.fst) := by
  refine ⟨?_, ?_, ?_⟩
  · by_cases hm : x ∈ (file.getD []).map Prod.fst
    · obtain ⟨nodes2, hu, hk, hl, hi⟩ := updateNodes_set_found x D hD (file.getD []) hm
      refine ⟨nodes2, ?_, ?_, ?_⟩
      · simp only [set_shortcut]
        rw [hu]
      · have hnd2 : (nodes2.map Prod.fst).Nodup := hk ▸ hnd
        exact lookup_fold_mem x D nodes2 defaults hnd2 hl
      · simp only [set_shortcut]
        rw [show ((some nodes2 : Option (List (String × String))).getD []) = nodes2
          from rfl, hi]
    · have hu := updateNodes_none_of_not_mem x (some D) (file.getD []) hm
      refine ⟨file.getD [] ++ [(x, D)], ?_, ?_, ?_⟩
      · simp only [set_shortcut]
        rw [hu]
        simp [truthyVal, hD]
      · have hk : ((file.getD [] ++ [(x, D)]).map Prod.fst).Nodup := by
          rw [List.map_append]
          rw [List.nodup_append]
          refine ⟨hnd, List.nodup_singleton x, ?_⟩
          intro a ha hb
          simp only [List.map_cons, List.map_nil, List.mem_singleton] at hb
          subst hb
          exact hm ha
        have hl : List.lookup x (file.getD [] ++ [(x, D)]) = some D :=
          lookup_append_new x D (file.getD []) hm
        exact lookup_fold_mem x D _ defaults hk hl
      · simp only [set_shortcut]
        rw [show ((some (file.getD [] ++ [(x, D)]) :
            Option (List (String × String))).getD []) = file.getD [] ++ [(x, D)]
          from rfl]
        rw [updateNodes_append_self x D hD (file.getD []) hm]
  · intro nodes2 h
    simp only [set_shortcut] at h
    cases hu : updateShortcutNodes x none (file.getD []) with
    | some r =>
      rw [hu] at h
      have hr : r = nodes2 := by
        cases h
        rfl
      subst hr
      have hm : x ∈ (file.getD []).map Prod.fst := by
        by_contra hc
        rw [updateNodes_none_of_not_mem x none (file.getD []) hc] at hu
        cases hu
      obtain ⟨r2, hu2, hx2⟩ := updateNodes_del_found x (file.getD []) hnd hm
      rw [hu] at hu2
      have hrr : r = r2 := by
        cases hu2
        rfl
      subst hrr
      exact ⟨hx2, lookup_fold_not_mem x r defaults hx2⟩
    | none =>
      rw [hu] at h
      simp [truthyVal] at h
  · intro e h
    simp only [set_shortcut] at h
    cases hu : updateShortcutNodes x none (file.getD []) with
    | some r =>
      rw [hu] at h
      cases h
    | none => exact updateNodes_not_mem_of_none x none (file.getD []) hu

theorem C8_store_roundtrip_witness :
    (∃ nodes2, set_shortcut (some [("a", "/one")]) "x" (some "/d") = .ok nodes2 ∧
      List.lookup "x" (get_shortcut [("~", "/h")] (some nodes2)) = some "/d" ∧
      set_shortcut (some nodes2) "x" (some "/d") = .ok nodes2) ∧
    (∀ nodes2, set_shortcut (some [("a", "/one")]) "x" none = .ok nodes2 →
      "x" ∉ nodes2.map Prod.fst ∧
      List.lookup "x" (get_shortcut [("~", "/h")] (some nodes2)) =
        List.lookup "x" [("~", "/h")]) ∧
    (∀ e, set_shortcut (some [("a", "/one")]) "x" none = .error e →
      "x" ∉ (((some [("a", "/one")] : Option (List (String × String))).getD
        []).map Prod.fst)) :=
  C8_store_roundtrip [("~", "/h")] (some [("a", "/one")]) "x" "/d" (by decide) (by decide)

/-- Claim C9 is contradicted by the code: the grouping regex of
print_shortcuts is built from the unescaped default names, and the dot
names are regex wildcards, so the pattern matches every name of one, two or
three characters.  At the failing input, a store holding the built-ins plus
the custom two-character shortcut ko, the name ko is not a default name yet
is listed in the default group, and the custom group is empty. -/
theorem C9_regex_groups_bug :
    ("ko" ∉ (get_default_shortcuts envDemo).map Prod.fst) ∧
    defaultNamesRegexMatch ((get_default_shortcuts envDemo).map Prod.fst) "ko" = true ∧
    ("ko" ∈ (print_shortcuts_groups ((get_default_shortcuts envDemo).map Prod.fst)
      (((get_default_shortcuts envDemo).map Prod.fst) ++ ["ko"])).1) ∧
    ("ko" ∉ (print_shortcuts_groups ((get_default_shortcuts envDemo).map Prod.fst)
      (((get_default_shortcuts envDemo).map Prod.fst) ++ ["ko"])).2) :=
  ⟨by decide, rfl, by decide, by decide⟩
